import Mathlib

/-!
Verification development for the SC2 hotkeys-file generator
(`src/gen_hotkeys.py`).

The Python program is shallowly embedded below.  Strings are Lean
`String`s, but every string operation used by the program (`str.split`
on a one-character separator, `str.lower`, `str.upper`, substring
containment via `in`, `"".join`) is realised by a structurally
recursive function over the underlying character list, so that all
definitions evaluate inside the kernel.

Python early `return`s inside the classifier's nested loops are
modelled with `Except String`: `.error a` means "the function returned
the final answer `a`", `.ok cur` means "the loop finished normally
with the running best-match variable `cur`".  The running variable
`cur`, which Python initialises to `False` and later holds a faction
name, is modelled as `Option String`.
-/

/-- Python `str.lower` (ASCII data only in this program). -/
def lowerStr (s : String) : String :=
  String.mk (s.data.map Char.toLower)

/-- Python `str.upper` (ASCII data only in this program). -/
def upperStr (s : String) : String :=
  String.mk (s.data.map Char.toUpper)

/-- Python substring containment `needle in haystack`. -/
def substr (needle haystack : String) : Bool :=
  (List.range (haystack.data.length + 1)).any fun i =>
    needle.data.isPrefixOf (haystack.data.drop i)

/-- Python `str.split(sep)` for a one-character separator, on the
character list: every occurrence of `sep` splits, empty chunks are
kept, the empty input gives one empty chunk. -/
def splitOnChar (sep : Char) : List Char → List (List Char)
  | [] => [[]]
  | c :: rest =>
    let r := splitOnChar sep rest
    if c = sep then [] :: r
    else (c :: r.headD []) :: r.tail

/-- Python `s.split(sep)` for a one-character separator. -/
def pysplit (sep : Char) (s : String) : List String :=
  (splitOnChar sep s.data).map String.mk

/-- The three per-faction keyword lists produced by
`WhichRace._read_units_txt` (`self.protoss`, `self.terran`,
`self.zerg`).  The claims quantify over arbitrary keyword catalogs. -/
structure Catalog where
  protoss : List String
  terran : List String
  zerg : List String

/-- The `zip([self.protoss, self.terran, self.zerg],
["protoss", "terran", "zerg"])` iteration order of `WhichRace.which`. -/
def races (cat : Catalog) : List (List String × String) :=
  [(cat.protoss, "protoss"), (cat.terran, "terran"), (cat.zerg, "zerg")]

/-- Inner loop of `WhichRace.which`: `for race_unit in race: ...`.
`.error "all"` models the early `return "all"` on a conflicting
keyword match; `.ok cur` models falling through with the updated
`cur`. -/
def scanKeywords (kws : List String) (name : String) (p : String)
    (cur : Option String) : Except String (Option String) :=
  match kws with
  | [] => .ok cur
  | kw :: rest =>
    if substr kw p then
      match cur with
      | some c =>
        if c ≠ name then .error "all"
        else scanKeywords rest name p (some name)
      | none => scanKeywords rest name p (some name)
    else scanKeywords rest name p cur

/-- Middle loop of `WhichRace.which`: `for race, name in zip(...)`.
The faction-name check `if name in l: return name` precedes that
faction's keyword scan. -/
def scanRaces (L : List (List String × String)) (p : String)
    (cur : Option String) : Except String (Option String) :=
  match L with
  | [] => .ok cur
  | (kws, name) :: rest =>
    if substr name p then .error name
    else
      match scanKeywords kws name p cur with
      | .error a => .error a
      | .ok cur1 => scanRaces rest p cur1

/-- Outer loop of `WhichRace.which`: `for l in units`. -/
def runParts (L : List (List String × String)) (parts : List String)
    (cur : Option String) : Except String (Option String) :=
  match parts with
  | [] => .ok cur
  | p :: rest =>
    match scanRaces L p cur with
    | .error a => .error a
    | .ok cur1 => runParts L rest cur1

/-- Python `units = "".join(hotkey.lower().split("=")[:-1]); units.split("/")`. -/
def labelParts (hotkey : String) : List String :=
  pysplit '/' (String.join ((pysplit '=' (lowerStr hotkey)).dropLast))

/-- Function `WhichRace.which`: the returned faction string
(`"all" if not cur else cur` on fall-through). -/
def which (cat : Catalog) (hotkey : String) : String :=
  match runParts (races cat) (labelParts hotkey) none with
  | .error a => a
  | .ok cur => match cur with | none => "all" | some c => c

/-- Function `WhichRace.which` together with its printed trace: the conflict
branch prints `multi-match` before returning `"all"`; in verbose mode
a fall-through return prints the hotkey, the resolved faction and a
blank line.  Early faction-name returns print nothing. -/
def whichVerbose (cat : Catalog) (verbose : Bool) (hotkey : String) :
    String × List String :=
  match runParts (races cat) (labelParts hotkey) none with
  | .error a => (a, if a = "all" then ["multi-match"] else [])
  | .ok cur =>
    ((match cur with | none => "all" | some c => c),
     if verbose then
       [hotkey, (match cur with | none => "all" | some c => c), ""]
     else [])

/-- Constant `GridHotkeys.reference_grid`. -/
def reference_grid : List String :=
  ["q", "w", "e", "r", "t",
   "a", "s", "d", "f", "g",
   "y", "x", "c", "v", "b"]

/-- Constant `GridHotkeys.default_grid`. -/
def default_grid : List String :=
  ["q", "w", "e", "r", "t",
   "a", "s", "d", "f", "g",
   "z", "x", "c", "v", "b"]

/-- Assignment `self.grid_key = custom_grid or self.default_grid`: the
constructor's only treatment of the caller-supplied grid.  `none`
models the `custom_grid=False` default and `some []` a falsy empty
list; any non-empty list is used as given, with no length check. -/
def grid_key (custom : Option (List String)) : List String :=
  match custom with
  | none => default_grid
  | some g => if g = [] then default_grid else g

/-- One iteration of the `GridHotkeys._hotkeys_output` loop.
`.ok none`: the key is not in the reference grid and the pairing is
dropped.  `.ok (some s)`: the remapped line appended to `ret_keys`.
`.error ()`: Python `IndexError` on `self.grid_key[...]` (possible
only when a custom grid is shorter than the reference index). -/
def remapOne (gk : List String) (pre : String) (hotkey : String) :
    Except Unit (Option String) :=
  let ck := lowerStr ((pysplit '=' hotkey).getLastD "")
  let unit := (pysplit '=' hotkey).dropLast
  if ck ∈ reference_grid then
    match gk.get? (reference_grid.indexOf ck) with
    | none => .error ()
    | some nk => .ok (some (String.join unit ++ "=" ++ (pre ++ upperStr nk)))
  else .ok none

/-- Method `GridHotkeys._hotkeys_output` over an explicit pairing list. -/
def hotkeys_output (gk : List String) (pre : String) :
    List String → Except Unit (List String)
  | [] => .ok []
  | h :: rest =>
    match remapOne gk pre h with
    | .error e => .error e
    | .ok none => hotkeys_output gk pre rest
    | .ok (some s) =>
      match hotkeys_output gk pre rest with
      | .error e => .error e
      | .ok out => .ok (s :: out)

/-- Method `GridHotkeys._filter_race` over an explicit raw pairing list:
keep a pairing iff its classified faction is `"all"` or equals
`self.race.lower()`. -/
def filter_race (cat : Catalog) (target : String) :
    List String → List String
  | [] => []
  | h :: rest =>
    if which cat h = "all" ∨ which cat h = lowerStr target
    then h :: filter_race cat target rest
    else filter_race cat target rest

/-- Keyword list of faction `A` in the fixed iteration order
protoss, terran, zerg. -/
def factionKws (cat : Catalog) : Fin 3 → List String
  | ⟨0, _⟩ => cat.protoss
  | ⟨1, _⟩ => cat.terran
  | ⟨2, _⟩ => cat.zerg

/-- Name of faction `A` in the fixed iteration order. -/
def factionName : Fin 3 → String
  | ⟨0, _⟩ => "protoss"
  | ⟨1, _⟩ => "terran"
  | ⟨2, _⟩ => "zerg"

/-- The first literal faction name contained in a part, in the
scan order protoss, terran, zerg. -/
def nameHit (p : String) : Option String :=
  if substr "protoss" p then some "protoss"
  else if substr "terran" p then some "terran"
  else if substr "zerg" p then some "zerg"
  else none

/-- The first literal faction name found over the parts, scanned
left to right. -/
def firstNameHit : List String → Option String
  | [] => none
  | p :: rest =>
    match nameHit p with
    | some nm => some nm
    | none => firstNameHit rest

/-- Whether a pairing's key (after the final `=`, lowercased) sits in
the reference grid — the retention condition of
`GridHotkeys._hotkeys_output`. -/
def gridResident (hotkey : String) : Bool :=
  decide (lowerStr ((pysplit '=' hotkey).getLastD "") ∈ reference_grid)

/-- The line `_hotkeys_output` emits for a retained pairing: the
`=`-split label parts re-joined with the empty separator, then `=`,
the prefix and the uppercased destination-grid key at the reference
index of the pairing's key. -/
def specEmit (gk : List String) (pre : String) (hotkey : String) : String :=
  String.join ((pysplit '=' hotkey).dropLast) ++ "=" ++
    (pre ++ upperStr (gk.getD
      (reference_grid.indexOf (lowerStr ((pysplit '=' hotkey).getLastD ""))) ""))

/-! ### Generic helper lemmas -/

theorem get?_eq_some_getD {α : Type} : ∀ (l : List α) (n : Nat),
    n < l.length → ∀ d : α, l.get? n = some (l.getD n d)
  | [], n, h, _ => absurd h (Nat.not_lt_zero n)
  | _ :: _, 0, _, _ => rfl
  | _ :: l, n + 1, h, d => get?_eq_some_getD l n (Nat.lt_of_succ_lt_succ h) d

theorem getD_of_get?_eq {α : Type} {l : List α} {n : Nat} {a : α} (d : α)
    (h : l.get? n = some a) : l.getD n d = a := by
  have h2 : l[n]? = some a := by rw [← List.get?_eq_getElem?]; exact h
  simp [List.getD, h2]

theorem toNat_ofNat_valid {n : Nat} (h : n.isValidChar) :
    (Char.ofNat n).toNat = n := by
  unfold Char.ofNat
  rw [dif_pos h]
  rfl

theorem toLower_eq_sep {c : Char} (h : c.toLower = '=') : c = '=' := by
  simp only [Char.toLower] at h
  split at h
  · rename_i hc
    have hv : (c.toNat + 32).isValidChar := by
      exact Or.inl (by omega)
    have h2 := congrArg Char.toNat h
    rw [toNat_ofNat_valid hv] at h2
    have h3 : ('=' : Char).toNat = 61 := rfl
    omega
  · exact h

theorem data_eq_nil {s : String} (h : s.data = []) : s = "" := by
  cases s with
  | mk d => exact congrArg String.mk h

theorem substr_empty_haystack {kw : String} (h : kw ≠ "") :
    substr kw "" = false := by
  unfold substr
  cases hk : kw.data with
  | nil => exact absurd (data_eq_nil hk) h
  | cons c cs => simp [hk, List.isPrefixOf]

theorem splitOnChar_no_sep {sep : Char} :
    ∀ l : List Char, sep ∉ l → splitOnChar sep l = [l]
  | [], _ => rfl
  | c :: rest, h => by
    have hc : ¬(c = sep) := fun e => h (e ▸ List.mem_cons_self c rest)
    have ih := splitOnChar_no_sep rest (fun m => h (List.mem_cons_of_mem c m))
    simp [splitOnChar, hc, ih]

theorem pysplit_no_sep {sep : Char} {s : String} (h : sep ∉ s.data) :
    pysplit sep s = [s] := by
  unfold pysplit
  rw [splitOnChar_no_sep s.data h]
  rfl

/-! ### Lemmas about the keyword scan of `WhichRace.which` -/

theorem scanKeywords_nomatch : ∀ (kws : List String) (name p : String)
    (cur : Option String), (∀ kw ∈ kws, substr kw p = false) →
    scanKeywords kws name p cur = .ok cur
  | [], _, _, _, _ => rfl
  | kw :: rest, name, p, cur, h => by
    have hk : substr kw p = false := h kw (List.mem_cons_self kw rest)
    simp only [scanKeywords, hk, Bool.false_eq_true, if_false]
    exact scanKeywords_nomatch rest name p cur
      (fun k hm => h k (List.mem_cons_of_mem kw hm))

theorem scanKeywords_same : ∀ (kws : List String) (name p : String),
    scanKeywords kws name p (some name) = .ok (some name)
  | [], _, _ => rfl
  | kw :: rest, name, p => by
    by_cases hk : substr kw p = true
    · have hne : ¬(name ≠ name) := fun hne => hne rfl
      show (if substr kw p = true then
          (if name ≠ name then (Except.error "all" : Except String (Option String))
           else scanKeywords rest name p (some name))
        else scanKeywords rest name p (some name)) = .ok (some name)
      rw [if_pos hk, if_neg hne]
      exact scanKeywords_same rest name p
    · simp only [Bool.not_eq_true] at hk
      simp only [scanKeywords, hk, Bool.false_eq_true, if_false]
      exact scanKeywords_same rest name p

theorem scanKeywords_some : ∀ (kws : List String) (name p c : String),
    scanKeywords kws name p (some c) = .error "all" ∨
    scanKeywords kws name p (some c) = .ok (some c)
  | [], _, _, _ => Or.inr rfl
  | kw :: rest, name, p, c => by
    by_cases hk : substr kw p = true
    · by_cases hc : c = name
      · subst hc
        simp only [scanKeywords, hk, if_true]
        have : ¬(c ≠ c) := fun hne => hne rfl
        rw [if_neg this]
        exact Or.inr (scanKeywords_same rest c p)
      · simp only [scanKeywords, hk, if_true]
        rw [if_pos hc]
        exact Or.inl rfl
    · simp only [Bool.not_eq_true] at hk
      simp only [scanKeywords, hk, Bool.false_eq_true, if_false]
      exact scanKeywords_some rest name p c

theorem scanKeywords_err : ∀ (kws : List String) (name p : String)
    (cur : Option String) (a : String),
    scanKeywords kws name p cur = .error a → a = "all"
  | [], _, _, _, _, h => by simp [scanKeywords] at h
  | kw :: rest, name, p, cur, a, h => by
    by_cases hk : substr kw p = true
    · simp only [scanKeywords, hk, if_true] at h
      cases cur with
      | none => exact scanKeywords_err rest name p (some name) a h
      | some c =>
        have h2 : (if c ≠ name then (Except.error "all" : Except String (Option String))
            else scanKeywords rest name p (some name)) = .error a := h
        by_cases hc : c ≠ name
        · rw [if_pos hc] at h2
          exact (Except.error.inj h2).symm
        · rw [if_neg hc] at h2
          exact scanKeywords_err rest name p (some name) a h2
    · simp only [Bool.not_eq_true] at hk
      simp only [scanKeywords, hk, Bool.false_eq_true, if_false] at h
      exact scanKeywords_err rest name p cur a h

theorem scanKeywords_conflict : ∀ (kws : List String) (name p c : String),
    c ≠ name → (∃ kw ∈ kws, substr kw p = true) →
    scanKeywords kws name p (some c) = .error "all"
  | [], _, _, _, _, hex => absurd hex (by simp)
  | kw :: rest, name, p, c, hc, hex => by
    by_cases hk : substr kw p = true
    · simp only [scanKeywords, hk, if_true]
      rw [if_pos hc]
    · simp only [Bool.not_eq_true] at hk
      simp only [scanKeywords, hk, Bool.false_eq_true, if_false]
      obtain ⟨k, hm, hsk⟩ := hex
      rcases List.mem_cons.mp hm with he | ht
      · subst he; rw [hsk] at hk; cases hk
      · exact scanKeywords_conflict rest name p c hc ⟨k, ht, hsk⟩

theorem scanKeywords_none_cases : ∀ (kws : List String) (name p : String),
    scanKeywords kws name p none = .ok none ∨
    scanKeywords kws name p none = .ok (some name)
  | [], _, _ => Or.inl rfl
  | kw :: rest, name, p => by
    by_cases hk : substr kw p = true
    · simp only [scanKeywords, hk, if_true]
      exact Or.inr (scanKeywords_same rest name p)
    · simp only [Bool.not_eq_true] at hk
      simp only [scanKeywords, hk, Bool.false_eq_true, if_false]
      exact scanKeywords_none_cases rest name p

theorem scanKeywords_ok_none : ∀ (kws : List String) (name p : String),
    scanKeywords kws name p none = .ok none →
    ∀ kw ∈ kws, substr kw p = false
  | [], _, _, _, _, hm => absurd hm (List.not_mem_nil _)
  | kw :: rest, name, p, h, k, hm => by
    by_cases hk : substr kw p = true
    · exfalso
      simp only [scanKeywords, hk, if_true] at h
      rw [scanKeywords_same rest name p] at h
      exact Option.noConfusion (Except.ok.inj h)
    · simp only [Bool.not_eq_true] at hk
      rcases List.mem_cons.mp hm with he | ht
      · subst he; exact hk
      · simp only [scanKeywords, hk, Bool.false_eq_true, if_false] at h
        exact scanKeywords_ok_none rest name p h k ht

theorem scanKeywords_match_none (kws : List String) (name p : String)
    (hex : ∃ kw ∈ kws, substr kw p = true) :
    scanKeywords kws name p none = .ok (some name) := by
  rcases scanKeywords_none_cases kws name p with h | h
  · obtain ⟨k, hm, hsk⟩ := hex
    rw [scanKeywords_ok_none kws name p h k hm] at hsk
    cases hsk
  · exact h

theorem scanKeywords_ok_range : ∀ (kws : List String) (name p : String)
    (cur cur1 : Option String),
    scanKeywords kws name p cur = .ok cur1 → cur1 = cur ∨ cur1 = some name
  | [], _, _, cur, cur1, h => Or.inl (Except.ok.inj h).symm
  | kw :: rest, name, p, cur, cur1, h => by
    by_cases hk : substr kw p = true
    · simp only [scanKeywords, hk, if_true] at h
      cases cur with
      | none =>
        rcases scanKeywords_ok_range rest name p (some name) cur1 h with h2 | h2
        · exact Or.inr h2
        · exact Or.inr h2
      | some c =>
        have h3 : (if c ≠ name then (Except.error "all" : Except String (Option String))
            else scanKeywords rest name p (some name)) = .ok cur1 := h
        by_cases hc : c ≠ name
        · rw [if_pos hc] at h3; cases h3
        · rw [if_neg hc] at h3
          rcases scanKeywords_ok_range rest name p (some name) cur1 h3 with h2 | h2
          · exact Or.inr h2
          · exact Or.inr h2
    · simp only [Bool.not_eq_true] at hk
      simp only [scanKeywords, hk, Bool.false_eq_true, if_false] at h
      exact scanKeywords_ok_range rest name p cur cur1 h

/-! ### Lemmas about the per-part race scan -/

theorem scanRaces_some : ∀ (L : List (List String × String)) (p c : String),
    (∀ q ∈ L, substr q.2 p = false) →
    scanRaces L p (some c) = .error "all" ∨ scanRaces L p (some c) = .ok (some c)
  | [], _, _, _ => Or.inr rfl
  | (kws, nm) :: rest, p, c, hnn => by
    have hn : substr nm p = false := hnn (kws, nm) (List.mem_cons_self _ _)
    simp only [scanRaces, hn, Bool.false_eq_true, if_false]
    rcases scanKeywords_some kws nm p c with h | h
    · rw [h]; exact Or.inl rfl
    · rw [h]
      exact scanRaces_some rest p c (fun q hq => hnn q (List.mem_cons_of_mem _ hq))

theorem scanRaces_conflict : ∀ (L : List (List String × String)) (p c : String)
    (kws : List String) (nm : String), (∀ q ∈ L, substr q.2 p = false) →
    (kws, nm) ∈ L → nm ≠ c → (∃ kw ∈ kws, substr kw p = true) →
    scanRaces L p (some c) = .error "all"
  | [], _, _, _, _, _, hm, _, _ => absurd hm (List.not_mem_nil _)
  | (k0, n0) :: rest, p, c, kws, nm, hnn, hm, hne, hex => by
    have hn : substr n0 p = false := hnn (k0, n0) (List.mem_cons_self _ _)
    simp only [scanRaces, hn, Bool.false_eq_true, if_false]
    rcases List.mem_cons.mp hm with he | ht
    · have hk0 : k0 = kws := (congrArg Prod.fst he).symm
      have hn0 : n0 = nm := (congrArg Prod.snd he).symm
      rw [hk0, hn0]
      rw [scanKeywords_conflict kws nm p c (fun e => hne e.symm) hex]
    · rcases scanKeywords_some k0 n0 p c with h | h
      · rw [h]
      · rw [h]
        exact scanRaces_conflict rest p c kws nm
          (fun q hq => hnn q (List.mem_cons_of_mem _ hq)) ht hne hex

theorem scanRaces_err : ∀ (L : List (List String × String)) (p : String)
    (cur : Option String) (a : String), (∀ q ∈ L, substr q.2 p = false) →
    scanRaces L p cur = .error a → a = "all"
  | [], _, _, _, _, h => by simp [scanRaces] at h
  | (k0, n0) :: rest, p, cur, a, hnn, h => by
    have hn : substr n0 p = false := hnn (k0, n0) (List.mem_cons_self _ _)
    simp only [scanRaces, hn, Bool.false_eq_true, if_false] at h
    cases he : scanKeywords k0 n0 p cur with
    | error a1 =>
      rw [he] at h
      have : a1 = a := Except.error.inj h
      subst this
      exact scanKeywords_err k0 n0 p cur a1 he
    | ok cur1 =>
      rw [he] at h
      exact scanRaces_err rest p cur1 a
        (fun q hq => hnn q (List.mem_cons_of_mem _ hq)) h

theorem scanRaces_ok_none : ∀ (L : List (List String × String)) (p : String),
    (∀ q ∈ L, substr q.2 p = false) → scanRaces L p none = .ok none →
    ∀ q ∈ L, ∀ kw ∈ q.1, substr kw p = false
  | [], _, _, _, _, hm => absurd hm (List.not_mem_nil _)
  | (k0, n0) :: rest, p, hnn, h, q, hm => by
    have hn : substr n0 p = false := hnn (k0, n0) (List.mem_cons_self _ _)
    simp only [scanRaces, hn, Bool.false_eq_true, if_false] at h
    rcases scanKeywords_none_cases k0 n0 p with he | he
    · rw [he] at h
      rcases List.mem_cons.mp hm with h0 | ht
      · subst h0
        exact scanKeywords_ok_none k0 n0 p he
      · exact scanRaces_ok_none rest p
          (fun q2 hq => hnn q2 (List.mem_cons_of_mem _ hq)) h q ht
    · rw [he] at h
      have h3 : scanRaces rest p (some n0) = .ok none := h
      exfalso
      rcases scanRaces_some rest p n0
          (fun q2 hq => hnn q2 (List.mem_cons_of_mem _ hq)) with h2 | h2
      · rw [h2] at h3; cases h3
      · rw [h2] at h3
        exact Option.noConfusion (Except.ok.inj h3)

theorem scanRaces_ok_some : ∀ (L : List (List String × String)) (p d : String),
    (∀ q ∈ L, substr q.2 p = false) → scanRaces L p none = .ok (some d) →
    ∀ q ∈ L, (∃ kw ∈ q.1, substr kw p = true) → q.2 = d
  | [], _, _, _, h, _, hm, _ => absurd hm (List.not_mem_nil _)
  | (k0, n0) :: rest, p, d, hnn, h, q, hm, hex => by
    have hn : substr n0 p = false := hnn (k0, n0) (List.mem_cons_self _ _)
    simp only [scanRaces, hn, Bool.false_eq_true, if_false] at h
    have hrest : ∀ q2 ∈ rest, substr q2.2 p = false :=
      fun q2 hq => hnn q2 (List.mem_cons_of_mem _ hq)
    rcases scanKeywords_none_cases k0 n0 p with he | he
    · rw [he] at h
      rcases List.mem_cons.mp hm with h0 | ht
      · exfalso
        obtain ⟨kw, hkm, hks⟩ := hex
        have : substr kw p = false := by
          have h4 := scanKeywords_ok_none k0 n0 p he
          have h5 : q.1 = k0 := by rw [h0]
          exact h4 kw (h5 ▸ hkm)
        rw [hks] at this; cases this
      · exact scanRaces_ok_some rest p d hrest h q ht hex
    · rw [he] at h
      have h3 : scanRaces rest p (some n0) = .ok (some d) := h
      have hd : n0 = d := by
        rcases scanRaces_some rest p n0 hrest with h2 | h2
        · rw [h2] at h3; cases h3
        · rw [h2] at h3
          exact Option.some.inj (Except.ok.inj h3)
      rcases List.mem_cons.mp hm with h0 | ht
      · rw [h0]; exact hd
      · by_contra hne
        have hc : scanRaces rest p (some n0) = .error "all" :=
          scanRaces_conflict rest p n0 q.1 q.2 hrest
            (by rw [Prod.mk.eta]; exact ht) (fun e => hne (e.trans hd)) hex
        rw [hc] at h3; cases h3

theorem scanRaces_ok_range : ∀ (L : List (List String × String)) (p : String)
    (cur cur1 : Option String), scanRaces L p cur = .ok cur1 →
    cur1 = cur ∨ ∃ q ∈ L, cur1 = some q.2
  | [], _, cur, cur1, h => Or.inl (Except.ok.inj h).symm
  | (k0, n0) :: rest, p, cur, cur1, h => by
    by_cases hn : substr n0 p = true
    · simp only [scanRaces, hn, if_true] at h
      cases h
    · simp only [Bool.not_eq_true] at hn
      simp only [scanRaces, hn, Bool.false_eq_true, if_false] at h
      cases he : scanKeywords k0 n0 p cur with
      | error a1 => rw [he] at h; cases h
      | ok curk =>
        rw [he] at h
        rcases scanRaces_ok_range rest p curk cur1 h with h2 | h2
        · subst h2
          rcases scanKeywords_ok_range k0 n0 p cur cur1 he with h3 | h3
          · exact Or.inl h3
          · exact Or.inr ⟨(k0, n0), List.mem_cons_self _ _, h3⟩
        · obtain ⟨q, hq, he2⟩ := h2
          exact Or.inr ⟨q, List.mem_cons_of_mem _ hq, he2⟩

theorem scanRaces_err_range : ∀ (L : List (List String × String)) (p : String)
    (cur : Option String) (a : String), scanRaces L p cur = .error a →
    a = "all" ∨ ∃ q ∈ L, a = q.2
  | [], _, _, _, h => by simp [scanRaces] at h
  | (k0, n0) :: rest, p, cur, a, h => by
    by_cases hn : substr n0 p = true
    · simp only [scanRaces, hn, if_true] at h
      exact Or.inr ⟨(k0, n0), List.mem_cons_self _ _, (Except.error.inj h).symm⟩
    · simp only [Bool.not_eq_true] at hn
      simp only [scanRaces, hn, Bool.false_eq_true, if_false] at h
      cases he : scanKeywords k0 n0 p cur with
      | error a1 =>
        rw [he] at h
        have ha : a1 = a := Except.error.inj h
        subst ha
        exact Or.inl (scanKeywords_err k0 n0 p cur a1 he)
      | ok curk =>
        rw [he] at h
        rcases scanRaces_err_range rest p curk a h with h2 | h2
        · exact Or.inl h2
        · obtain ⟨q, hq, he2⟩ := h2
          exact Or.inr ⟨q, List.mem_cons_of_mem _ hq, he2⟩

/-! ### Lemmas about the whole-label scan -/

theorem runParts_some : ∀ (L : List (List String × String))
    (parts : List String) (c : String),
    (∀ p ∈ parts, ∀ q ∈ L, substr q.2 p = false) →
    runParts L parts (some c) = .error "all" ∨
    runParts L parts (some c) = .ok (some c)
  | _, [], _, _ => Or.inr rfl
  | L, p :: rest, c, hnn => by
    have hp : ∀ q ∈ L, substr q.2 p = false :=
      hnn p (List.mem_cons_self _ _)
    rcases scanRaces_some L p c hp with h | h
    · left
      simp only [runParts, h]
    · simp only [runParts, h]
      exact runParts_some L rest c
        (fun p2 hp2 => hnn p2 (List.mem_cons_of_mem _ hp2))

theorem runParts_conflict : ∀ (L : List (List String × String))
    (parts : List String) (c : String) (pb : String) (kws : List String)
    (nm : String), (∀ p ∈ parts, ∀ q ∈ L, substr q.2 p = false) →
    pb ∈ parts → (kws, nm) ∈ L → nm ≠ c → (∃ kw ∈ kws, substr kw pb = true) →
    runParts L parts (some c) = .error "all"
  | _, [], _, _, _, _, _, hpb, _, _, _ => absurd hpb (List.not_mem_nil _)
  | L, p :: rest, c, pb, kws, nm, hnn, hpb, hm, hne, hex => by
    have hp : ∀ q ∈ L, substr q.2 p = false := hnn p (List.mem_cons_self _ _)
    rcases List.mem_cons.mp hpb with he | ht
    · subst he
      have h := scanRaces_conflict L pb c kws nm hp hm hne hex
      simp only [runParts, h]
    · rcases scanRaces_some L p c hp with h | h
      · simp only [runParts, h]
      · simp only [runParts, h]
        exact runParts_conflict L rest c pb kws nm
          (fun p2 hp2 => hnn p2 (List.mem_cons_of_mem _ hp2)) ht hm hne hex

theorem runParts_two : ∀ (L : List (List String × String))
    (parts : List String) (pa pb : String) (ka : List String) (na : String)
    (kb : List String) (nb : String),
    (∀ p ∈ parts, ∀ q ∈ L, substr q.2 p = false) →
    pa ∈ parts → pb ∈ parts → (ka, na) ∈ L → (kb, nb) ∈ L → na ≠ nb →
    (∃ kw ∈ ka, substr kw pa = true) → (∃ kw ∈ kb, substr kw pb = true) →
    runParts L parts none = .error "all"
  | _, [], _, _, _, _, _, _, _, hpa, _, _, _, _, _, _ =>
    absurd hpa (List.not_mem_nil _)
  | L, p :: rest, pa, pb, ka, na, kb, nb, hnn, hpa, hpb, hma, hmb, hne,
      hexa, hexb => by
    have hp : ∀ q ∈ L, substr q.2 p = false := hnn p (List.mem_cons_self _ _)
    have hrest : ∀ p2 ∈ rest, ∀ q ∈ L, substr q.2 p2 = false :=
      fun p2 hp2 => hnn p2 (List.mem_cons_of_mem _ hp2)
    cases hsr : scanRaces L p none with
    | error a =>
      have ha : a = "all" := scanRaces_err L p none a hp hsr
      subst ha
      simp only [runParts, hsr]
    | ok cur1 =>
      simp only [runParts, hsr]
      cases cur1 with
      | none =>
        have hnomatch := scanRaces_ok_none L p hp hsr
        rcases List.mem_cons.mp hpa with hea | hta
        · exfalso
          obtain ⟨kw, hkm, hks⟩ := hexa
          have := hnomatch (ka, na) hma kw hkm
          rw [hea] at hks
          rw [hks] at this; cases this
        · rcases List.mem_cons.mp hpb with heb | htb
          · exfalso
            obtain ⟨kw, hkm, hks⟩ := hexb
            have := hnomatch (kb, nb) hmb kw hkm
            rw [heb] at hks
            rw [hks] at this; cases this
          · exact runParts_two L rest pa pb ka na kb nb hrest hta htb
              hma hmb hne hexa hexb
      | some d =>
        have hok := scanRaces_ok_some L p d hp hsr
        rcases List.mem_cons.mp hpa with hea | hta
        · have hna : na = d := by
            have := hok (ka, na) hma
            exact this (hea ▸ hexa)
          rcases List.mem_cons.mp hpb with heb | htb
          · exfalso
            have hnb : nb = d := hok (kb, nb) hmb (heb ▸ hexb)
            exact hne (hna.trans hnb.symm)
          · have hnbd : nb ≠ d := fun e => hne (hna.trans e.symm)
            exact runParts_conflict L rest d pb kb nb hrest htb hmb hnbd hexb
        · by_cases hnad : na = d
          · have hnbd : nb ≠ d := fun e => hne (hnad.trans e.symm)
            rcases List.mem_cons.mp hpb with heb | htb
            · exfalso
              exact hnbd (hok (kb, nb) hmb (heb ▸ hexb))
            · exact runParts_conflict L rest d pb kb nb hrest htb hmb hnbd hexb
          · exact runParts_conflict L rest d pa ka na hrest hta hma hnad hexa

theorem runParts_ok_range : ∀ (L : List (List String × String))
    (parts : List String) (cur cur1 : Option String),
    runParts L parts cur = .ok cur1 → cur1 = cur ∨ ∃ q ∈ L, cur1 = some q.2
  | _, [], cur, cur1, h => Or.inl (Except.ok.inj h).symm
  | L, p :: rest, cur, cur1, h => by
    cases hsr : scanRaces L p cur with
    | error a => simp only [runParts, hsr] at h; cases h
    | ok curk =>
      simp only [runParts, hsr] at h
      rcases runParts_ok_range L rest curk cur1 h with h2 | h2
      · subst h2
        exact scanRaces_ok_range L p cur cur1 hsr
      · exact Or.inr h2

theorem runParts_err_range : ∀ (L : List (List String × String))
    (parts : List String) (cur : Option String) (a : String),
    runParts L parts cur = .error a → a = "all" ∨ ∃ q ∈ L, a = q.2
  | _, [], _, _, h => by simp [runParts] at h
  | L, p :: rest, cur, a, h => by
    cases hsr : scanRaces L p cur with
    | error a1 =>
      simp only [runParts, hsr] at h
      have : a1 = a := Except.error.inj h
      subst this
      exact scanRaces_err_range L p cur a1 hsr
    | ok curk =>
      simp only [runParts, hsr] at h
      exact runParts_err_range L rest curk a h

/-- The faction names paired with the keyword lists in the scan order
of `WhichRace.which`. -/
theorem races_snd (cat : Catalog) (q : List String × String)
    (hq : q ∈ races cat) :
    q.2 = "protoss" ∨ q.2 = "terran" ∨ q.2 = "zerg" := by
  simp only [races, List.mem_cons, List.not_mem_nil, or_false] at hq
  rcases hq with h | h | h
  · exact Or.inl (by rw [h])
  · exact Or.inr (Or.inl (by rw [h]))
  · exact Or.inr (Or.inr (by rw [h]))

theorem which_range (cat : Catalog) (hk : String) :
    which cat hk = "all" ∨ which cat hk = "protoss" ∨
    which cat hk = "terran" ∨ which cat hk = "zerg" := by
  unfold which
  cases hr : runParts (races cat) (labelParts hk) none with
  | error a =>
    rcases runParts_err_range (races cat) (labelParts hk) none a hr with h | h
    · exact Or.inl h
    · obtain ⟨q, hq, he⟩ := h
      rcases races_snd cat q hq with h2 | h2 | h2
      · exact Or.inr (Or.inl (he.trans h2))
      · exact Or.inr (Or.inr (Or.inl (he.trans h2)))
      · exact Or.inr (Or.inr (Or.inr (he.trans h2)))
  | ok cur =>
    rcases runParts_ok_range (races cat) (labelParts hk) none cur hr with h | h
    · subst h; exact Or.inl rfl
    · obtain ⟨q, hq, he⟩ := h
      subst he
      rcases races_snd cat q hq with h2 | h2 | h2
      · exact Or.inr (Or.inl h2)
      · exact Or.inr (Or.inr (Or.inl h2))
      · exact Or.inr (Or.inr (Or.inr h2))

theorem which_lower_fix (cat : Catalog) (hk : String) :
    lowerStr (which cat hk) = which cat hk := by
  rcases which_range cat hk with h | h | h | h <;> rw [h] <;> rfl

/-! ### The scan when no keyword matches: only the name checks act -/

theorem scanRaces_races_nokw (cat : Catalog) (p : String)
    (cur : Option String)
    (hnk : ∀ A : Fin 3, ∀ kw ∈ factionKws cat A, substr kw p = false) :
    scanRaces (races cat) p cur =
      (match nameHit p with
       | some nm => .error nm
       | none => .ok cur) := by
  have hp : scanKeywords cat.protoss "protoss" p cur = .ok cur :=
    scanKeywords_nomatch cat.protoss "protoss" p cur (hnk ⟨0, by omega⟩)
  have ht : scanKeywords cat.terran "terran" p cur = .ok cur :=
    scanKeywords_nomatch cat.terran "terran" p cur (hnk ⟨1, by omega⟩)
  have hz : scanKeywords cat.zerg "zerg" p cur = .ok cur :=
    scanKeywords_nomatch cat.zerg "zerg" p cur (hnk ⟨2, by omega⟩)
  by_cases h1 : substr "protoss" p = true
  · simp [races, scanRaces, nameHit, h1]
  · simp only [Bool.not_eq_true] at h1
    by_cases h2 : substr "terran" p = true
    · simp [races, scanRaces, nameHit, h1, h2, hp]
    · simp only [Bool.not_eq_true] at h2
      by_cases h3 : substr "zerg" p = true
      · simp [races, scanRaces, nameHit, h1, h2, h3, hp, ht]
      · simp only [Bool.not_eq_true] at h3
        simp [races, scanRaces, nameHit, h1, h2, h3, hp, ht, hz]

theorem runParts_races_nokw (cat : Catalog) :
    ∀ (parts : List String) (cur : Option String),
    (∀ p ∈ parts, ∀ A : Fin 3, ∀ kw ∈ factionKws cat A, substr kw p = false) →
    runParts (races cat) parts cur =
      (match firstNameHit parts with
       | some nm => .error nm
       | none => .ok cur)
  | [], _, _ => rfl
  | p :: rest, cur, hnk => by
    have hsr := scanRaces_races_nokw cat p cur (hnk p (List.mem_cons_self _ _))
    cases hn : nameHit p with
    | some nm =>
      rw [hn] at hsr
      simp only [runParts, hsr, firstNameHit, hn]
    | none =>
      rw [hn] at hsr
      simp only [runParts, hsr, firstNameHit, hn]
      exact runParts_races_nokw cat rest cur
        (fun p2 hp2 => hnk p2 (List.mem_cons_of_mem _ hp2))

/-! ### Lemmas about the remapping loop -/

theorem indexOf_ref_lt (ck : String) (h : ck ∈ reference_grid) :
    reference_grid.indexOf ck < 15 := by
  simp only [reference_grid, List.mem_cons, List.not_mem_nil, or_false] at h
  rcases h with h|h|h|h|h|h|h|h|h|h|h|h|h|h|h <;> subst h <;> decide

theorem remapOne_mem (gk : List String) (pre : String) (hotkey : String)
    (hg : lowerStr ((pysplit '=' hotkey).getLastD "") ∈ reference_grid)
    (hlen : gk.length = 15) :
    remapOne gk pre hotkey = .ok (some (specEmit gk pre hotkey)) := by
  have hidx : reference_grid.indexOf
      (lowerStr ((pysplit '=' hotkey).getLastD "")) < gk.length := by
    rw [hlen]
    exact indexOf_ref_lt _ hg
  have hq := get?_eq_some_getD gk _ hidx ""
  simp only [remapOne, if_pos hg, hq]
  rfl

theorem remapOne_not_mem (gk : List String) (pre : String) (hotkey : String)
    (hg : lowerStr ((pysplit '=' hotkey).getLastD "") ∉ reference_grid) :
    remapOne gk pre hotkey = .ok none := by
  simp only [remapOne, if_neg hg]

theorem hotkeys_output_ok (gk : List String) (pre : String)
    (hlen : gk.length = 15) : ∀ l : List String,
    hotkeys_output gk pre l = .ok ((l.filter gridResident).map (specEmit gk pre))
  | [] => rfl
  | h :: t => by
    by_cases hg : lowerStr ((pysplit '=' h).getLastD "") ∈ reference_grid
    · have hr := remapOne_mem gk pre h hg hlen
      have hgr : gridResident h = true := decide_eq_true hg
      simp only [hotkeys_output, hr, List.filter_cons, hgr, if_true,
        List.map_cons, hotkeys_output_ok gk pre hlen t]
    · have hr := remapOne_not_mem gk pre h hg
      have hgr : gridResident h = false := decide_eq_false hg
      simp only [hotkeys_output, hr, List.filter_cons, hgr,
        Bool.false_eq_true, if_false, hotkeys_output_ok gk pre hlen t]

theorem remapOne_ok_some (gk : List String) (pre : String) (h : String)
    (s0 : String) (he : remapOne gk pre h = .ok (some s0)) :
    gridResident h = true ∧ s0 = specEmit gk pre h := by
  by_cases hg : lowerStr ((pysplit '=' h).getLastD "") ∈ reference_grid
  · refine ⟨decide_eq_true hg, ?_⟩
    have hun : remapOne gk pre h = (match gk.get? (reference_grid.indexOf
        (lowerStr ((pysplit '=' h).getLastD ""))) with
      | none => (Except.error () : Except Unit (Option String))
      | some nk => .ok (some (String.join ((pysplit '=' h).dropLast) ++ "=" ++
          (pre ++ upperStr nk)))) := by
      simp only [remapOne]
      rw [if_pos hg]
    rw [hun] at he
    cases hq : gk.get? (reference_grid.indexOf
        (lowerStr ((pysplit '=' h).getLastD ""))) with
    | none =>
      rw [hq] at he
      exact Except.noConfusion
        (he : (Except.error () : Except Unit (Option String)) = .ok (some s0))
    | some nk =>
      rw [hq] at he
      have he3 : (Except.ok (some (String.join ((pysplit '=' h).dropLast) ++ "=" ++
          (pre ++ upperStr nk))) : Except Unit (Option String)) = .ok (some s0) := he
      have hs := Option.some.inj (Except.ok.inj he3)
      unfold specEmit
      rw [getD_of_get?_eq "" hq]
      exact hs.symm
  · rw [remapOne_not_mem gk pre h hg] at he
    exact Option.noConfusion (Except.ok.inj he)

theorem hotkeys_output_mem (gk : List String) (pre : String) :
    ∀ (l out : List String), hotkeys_output gk pre l = .ok out →
    ∀ s ∈ out, ∃ h ∈ l, gridResident h = true ∧ s = specEmit gk pre h
  | [], out, hok, s, hs => by
    have : out = [] := (Except.ok.inj hok).symm
    subst this
    exact absurd hs (List.not_mem_nil _)
  | h :: t, out, hok, s, hs => by
    cases he : remapOne gk pre h with
    | error e =>
      simp only [hotkeys_output, he] at hok
      cases hok
    | ok o =>
      cases o with
      | none =>
        simp only [hotkeys_output, he] at hok
        obtain ⟨h2, hm2, hgr2, he2⟩ := hotkeys_output_mem gk pre t out hok s hs
        exact ⟨h2, List.mem_cons_of_mem _ hm2, hgr2, he2⟩
      | some s0 =>
        simp only [hotkeys_output, he] at hok
        cases ht : hotkeys_output gk pre t with
        | error e => rw [ht] at hok; cases hok
        | ok out1 =>
          rw [ht] at hok
          have : s0 :: out1 = out := Except.ok.inj hok
          subst this
          rcases List.mem_cons.mp hs with hs0 | hst
          · obtain ⟨hgr, hse⟩ := remapOne_ok_some gk pre h s0 he
            exact ⟨h, List.mem_cons_self _ _, hgr, hs0 ▸ hse⟩
          · obtain ⟨h2, hm2, hgr2, he2⟩ :=
              hotkeys_output_mem gk pre t out1 ht s hst
            exact ⟨h2, List.mem_cons_of_mem _ hm2, hgr2, he2⟩

/-! ### The filter loop as a `List.filter` -/

theorem filter_race_eq_filter (cat : Catalog) (target : String) :
    ∀ raw : List String, filter_race cat target raw =
      raw.filter (fun h =>
        decide (which cat h = "all" ∨ which cat h = lowerStr target))
  | [] => rfl
  | h :: t => by
    by_cases hc : which cat h = "all" ∨ which cat h = lowerStr target
    · simp only [filter_race, if_pos hc, List.filter_cons, decide_eq_true hc,
        if_true, filter_race_eq_filter cat target t]
    · simp only [filter_race, if_neg hc, List.filter_cons, decide_eq_false hc,
        Bool.false_eq_true, if_false, filter_race_eq_filter cat target t]

/-- A small concrete catalog used in the concrete instantiations below:
one protoss keyword `aa`, one terran keyword `bb`, no zerg keywords. -/
def cat0 : Catalog := ⟨["aa"], ["bb"], []⟩

/-! ### Claim theorems -/

/-- C1 counterexample: the part `zergaabb` of the label of the pairing
`zergaabb=Q` contains the literal faction name `zerg`, yet with a
catalog whose protoss list holds `aa` and whose terran list holds `bb`
the classifier returns `"all"`, not `"zerg"`: the conflicting keyword
matches of the earlier factions preempt the later literal-name check.
This refutes the claim that the literal-name check always wins. -/
theorem C1_counterexample :
    (labelParts "zergaabb=Q" = ["zergaabb"]) ∧
    substr "zerg" "zergaabb" = true ∧
    "aa" ∈ cat0.protoss ∧ "bb" ∈ cat0.terran ∧
    which cat0 "zergaabb=Q" = "all" ∧ "all" ≠ "zerg" := by
  refine ⟨rfl, by decide, by decide, by decide, by decide, by decide⟩

/-- C1 amended: a literal faction name classifies to that faction only
when the scan reaches its name check.  (1) When no keyword of any
faction matches any part, the classifier returns the first literal
faction name found in scan order (parts left to right; names in order
protoss, terran, zerg), or `"all"` if there is none.  (2) A label whose
first part contains `protoss` — the very first check of the whole
scan — classifies to `protoss` for every catalog. -/
theorem C1_amended_thm (cat : Catalog) (hk : String) :
    ((∀ p ∈ labelParts hk, ∀ A : Fin 3, ∀ kw ∈ factionKws cat A,
        substr kw p = false) →
      which cat hk = (firstNameHit (labelParts hk)).getD "all") ∧
    (substr "protoss" ((labelParts hk).headD "") = true →
      which cat hk = "protoss") := by
  constructor
  · intro hnk
    unfold which
    rw [runParts_races_nokw cat (labelParts hk) none hnk]
    cases hfn : firstNameHit (labelParts hk) with
    | some nm => simp
    | none => simp
  · intro hph
    cases hlp : labelParts hk with
    | nil =>
      rw [hlp] at hph
      exact absurd hph (by decide)
    | cons p rest =>
      rw [hlp] at hph
      have hph2 : substr "protoss" p = true := hph
      unfold which
      rw [hlp]
      have hsr : scanRaces (races cat) p none = .error "protoss" := by
        simp only [races, scanRaces]
        rw [if_pos hph2]
      simp only [runParts, hsr]

/-- C1 amended, instantiated: with catalog `cat0` the label part
`xterranx` matches no keyword and contains `terran`, so the pairing
classifies to `terran`; a label whose first part contains `protoss`
classifies to `protoss`. -/
theorem C1_amended_witness :
    which cat0 "xterranx=Q" = "terran" ∧
    which cat0 "protossy=Q" = "protoss" := by
  constructor
  · exact ((C1_amended_thm cat0 "xterranx=Q").1 (by decide)).trans (by decide)
  · exact (C1_amended_thm cat0 "protossy=Q").2 (by decide)

/-- C2: the reference grid holds `y` at index 10 where the default
destination grid holds `z`, and the two grids agree everywhere else;
consequently, with the default grid and empty prefix, a pairing whose
key lowercases to `z` is dropped (its key is not in the reference
grid), a pairing whose key lowercases to `y` is emitted with key `Z`,
and remapping is not the identity on the 15 standard grid keys. -/
theorem C2_thm :
    reference_grid.get? 10 = some "y" ∧
    default_grid.get? 10 = some "z" ∧
    (∀ i : Fin 15, i.val ≠ 10 →
      reference_grid.get? i.val = default_grid.get? i.val) ∧
    (∀ s rest, lowerStr ((pysplit '=' s).getLastD "") = "z" →
      hotkeys_output default_grid "" (s :: rest) =
        hotkeys_output default_grid "" rest) ∧
    (∀ s, lowerStr ((pysplit '=' s).getLastD "") = "y" →
      hotkeys_output default_grid "" [s] =
        .ok [String.join ((pysplit '=' s).dropLast) ++ "=" ++ "Z"]) ∧
    hotkeys_output default_grid "" ["A=y"] ≠ .ok ["A=y"] := by
  refine ⟨rfl, rfl, by decide, ?_, ?_, ?_⟩
  · intro s rest hs
    have hr : remapOne default_grid "" s = .ok none := by
      apply remapOne_not_mem
      rw [hs]
      decide
    simp only [hotkeys_output, hr]
  · intro s hs
    have hmem : lowerStr ((pysplit '=' s).getLastD "") ∈ reference_grid := by
      rw [hs]; decide
    have hr := remapOne_mem default_grid "" s hmem rfl
    simp only [hotkeys_output, hr]
    unfold specEmit
    rw [hs]
    rfl
  · intro hcontra
    have hval : hotkeys_output default_grid "" ["A=y"] = .ok ["A=Z"] := rfl
    rw [hval] at hcontra
    have h3 : (["A=Z"] : List String) = ["A=y"] := Except.ok.inj hcontra
    have h4 : ("A=Z" : String) = "A=y" := (List.cons.inj h3).1
    exact absurd h4 (by decide)

/-- C2, instantiated: `Stalker=z` is dropped and `Stalker=y` comes out
as `Stalker=Z` under the default grid with empty prefix. -/
theorem C2_witness :
    hotkeys_output default_grid "" ["Stalker=z", "Probe=q"] =
      hotkeys_output default_grid "" ["Probe=q"] ∧
    hotkeys_output default_grid "" ["Stalker=y"] =
      .ok [String.join ((pysplit '=' "Stalker=y").dropLast) ++ "=" ++ "Z"] :=
  ⟨C2_thm.2.2.2.1 "Stalker=z" ["Probe=q"] (by decide),
   C2_thm.2.2.2.2.1 "Stalker=y" (by decide)⟩

/-- C3 counterexample: the constructor accepts the length-1 custom grid
`["q"]` unchanged — no length validation exists and no error is
raised — and remapping afterwards produces output with it. -/
theorem C3_counterexample :
    grid_key (some ["q"]) = ["q"] ∧
    hotkeys_output (grid_key (some ["q"])) "" ["A=q"] = .ok ["A=Q"] :=
  ⟨rfl, rfl⟩

/-- C3 amended: the constructor performs no grid-length validation:
with no custom grid (or a falsy empty one) the default grid is used,
and any non-empty custom grid of any length is used as given.  A
too-short custom grid fails only later, with an index error during
remapping, when a pairing's reference-grid index exceeds its length. -/
theorem C3_amended_thm :
    grid_key none = default_grid ∧
    grid_key (some []) = default_grid ∧
    (∀ g : List String, g ≠ [] → grid_key (some g) = g) ∧
    hotkeys_output ["q"] "" ["A=w"] = .error () := by
  refine ⟨rfl, rfl, ?_, rfl⟩
  intro g hg
  simp [grid_key, hg]

/-- C3 amended, instantiated at the length-1 grid `["a"]`. -/
theorem C3_amended_witness : grid_key (some ["a"]) = ["a"] :=
  C3_amended_thm.2.2.1 ["a"] (by decide)

/-- C4 counterexample: the pairing string `noequals` has no `=`, yet no
error is raised anywhere: classification returns `"all"`, filtering
keeps it for any target faction, and a separator-free string that
happens to be a grid key (`q`) is even remapped into the output line
`=Q` with an empty label. -/
theorem C4_counterexample :
    which cat0 "noequals" = "all" ∧
    filter_race cat0 "terran" ["noequals"] = ["noequals"] ∧
    hotkeys_output default_grid "" ["q"] = .ok ["=Q"] := by
  refine ⟨by decide, by decide, rfl⟩

/-- C4 amended: a raw pairing without `=` raises no error.  Its label
becomes the single empty part, so (as long as no keyword is the empty
string) it classifies to `"all"` and survives every faction filter;
remapping treats the whole string as the key, silently dropping the
pairing when that key is outside the reference grid and otherwise
emitting a line with an empty label. -/
theorem C4_amended_thm (cat : Catalog) (s : String)
    (hs : ('=' : Char) ∉ s.data)
    (hne : ∀ A : Fin 3, ∀ kw ∈ factionKws cat A, kw ≠ "")
    (gk : List String) (pre : String) :
    which cat s = "all" ∧
    (∀ target : String, filter_race cat target [s] = [s]) ∧
    (lowerStr s ∉ reference_grid → hotkeys_output gk pre [s] = .ok []) ∧
    (lowerStr s ∈ reference_grid → gk.length = 15 →
      hotkeys_output gk pre [s] =
        .ok ["=" ++ (pre ++ upperStr
          (gk.getD (reference_grid.indexOf (lowerStr s)) ""))]) := by
  have hld : ('=' : Char) ∉ (lowerStr s).data := by
    intro hm
    have hm2 : ('=' : Char) ∈ s.data.map Char.toLower := hm
    rw [List.mem_map] at hm2
    obtain ⟨c, hc, hcl⟩ := hm2
    rw [toLower_eq_sep hcl] at hc
    exact hs hc
  have hsplitlow : pysplit '=' (lowerStr s) = [lowerStr s] := pysplit_no_sep hld
  have hsplit : pysplit '=' s = [s] := pysplit_no_sep hs
  have hkey : (pysplit '=' s).getLastD "" = s := by rw [hsplit]; rfl
  have hlp : labelParts s = [""] := by
    unfold labelParts
    rw [hsplitlow]
    rfl
  have hkw : ∀ p2 ∈ labelParts s, ∀ A : Fin 3, ∀ kw ∈ factionKws cat A,
      substr kw p2 = false := by
    rw [hlp]
    intro p2 hp2 A kw hkwm
    have hp2e : p2 = "" := by simpa using hp2
    subst hp2e
    exact substr_empty_haystack (hne A kw hkwm)
  have hwhich : which cat s = "all" := by
    unfold which
    rw [runParts_races_nokw cat (labelParts s) none hkw, hlp]
    rfl
  refine ⟨hwhich, ?_, ?_, ?_⟩
  · intro target
    have hc : which cat s = "all" ∨ which cat s = lowerStr target :=
      Or.inl hwhich
    simp only [filter_race, if_pos hc]
  · intro hnm
    have hr : remapOne gk pre s = .ok none :=
      remapOne_not_mem gk pre s (by rw [hkey]; exact hnm)
    simp only [hotkeys_output, hr]
  · intro hm hlen
    have hr := remapOne_mem gk pre s (by rw [hkey]; exact hm) hlen
    simp only [hotkeys_output, hr]
    unfold specEmit
    rw [hsplit]
    rfl

/-- C4 amended, instantiated: with catalog `cat0`, the separator-free
pairing `q` classifies to `"all"` and is remapped to the line `=Q`
under the default grid with empty prefix. -/
theorem C4_amended_witness :
    which cat0 "q" = "all" ∧
    hotkeys_output default_grid "" ["q"] =
      .ok ["=" ++ ("" ++ upperStr
        (default_grid.getD (reference_grid.indexOf (lowerStr "q")) ""))] := by
  have h := C4_amended_thm cat0 "q" (by decide) (by decide) default_grid ""
  exact ⟨h.1, h.2.2.2 (by decide) (by decide)⟩

/-- C5 counterexample: the pairing `A/B=Q` is emitted as the line
`A/B=Q`: the `/` inside the label is preserved verbatim, so the claim
that the output label is `AB` (label parts re-joined with the empty
separator across `/`) fails. -/
theorem C5_counterexample :
    hotkeys_output default_grid "" ["A/B=Q"] = .ok ["A/B=Q"] ∧
    ("A/B=Q" : String) ≠ "AB=Q" ∧
    hotkeys_output default_grid "" ["A/B=Q"] ≠ .ok ["AB=Q"] := by
  refine ⟨rfl, by decide, ?_⟩
  intro hcontra
  have hval : hotkeys_output default_grid "" ["A/B=Q"] = .ok ["A/B=Q"] := rfl
  rw [hval] at hcontra
  have h3 : (["A/B=Q"] : List String) = ["AB=Q"] := Except.ok.inj hcontra
  have h4 : ("A/B=Q" : String) = "AB=Q" := (List.cons.inj h3).1
  exact absurd h4 (by decide)

/-- C5 amended: every emitted line is the source pairing's label —
its `=`-separated parts minus the last, re-joined with the empty
separator, `/` kept verbatim — followed by `=`, the prefix and the
remapped key.  Joining with the empty separator is observable only
when the label itself contains `=`: `A/B=Q` yields the label `A/B`
while `A=B=Q` yields the label `AB`. -/
theorem C5_amended_thm (gk : List String) (pre : String)
    (l out : List String) (hok : hotkeys_output gk pre l = .ok out) :
    (∀ s ∈ out, ∃ h ∈ l, gridResident h = true ∧
      s = String.join ((pysplit '=' h).dropLast) ++ "=" ++
        (pre ++ upperStr (gk.getD (reference_grid.indexOf
          (lowerStr ((pysplit '=' h).getLastD ""))) ""))) ∧
    hotkeys_output default_grid "" ["A/B=Q"] = .ok ["A/B=Q"] ∧
    hotkeys_output default_grid "" ["A=B=Q"] = .ok ["AB=Q"] :=
  ⟨fun s hs => hotkeys_output_mem gk pre l out hok s hs, rfl, rfl⟩

/-- C5 amended, instantiated: the single output line of remapping
`["A/B=Q"]` is the label `A/B` (slash kept) followed by `=` and the
remapped key. -/
theorem C5_amended_witness :
    ∃ h ∈ (["A/B=Q"] : List String), gridResident h = true ∧
      "A/B=Q" = String.join ((pysplit '=' h).dropLast) ++ "=" ++
        ("" ++ upperStr (default_grid.getD (reference_grid.indexOf
          (lowerStr ((pysplit '=' h).getLastD ""))) "")) :=
  (C5_amended_thm default_grid "" ["A/B=Q"] ["A/B=Q"] rfl).1
    "A/B=Q" (List.mem_singleton.mpr rfl)

/-- C6: with a destination grid of the invariant length 15, remapping
emits exactly the pairings whose key (after the final `=`, lowercased)
lies in the reference grid, each transformed to its label followed by
`=`, the prefix and the uppercased destination key at the reference
index; everything else is dropped, so the output has exactly one line
per grid-resident pairing and at most one per input pairing. -/
theorem C6_thm (gk : List String) (pre : String) (l : List String)
    (hlen : gk.length = 15) :
    hotkeys_output gk pre l =
      .ok ((l.filter gridResident).map (specEmit gk pre)) ∧
    ((l.filter gridResident).map (specEmit gk pre)).length =
      (l.filter gridResident).length ∧
    ((l.filter gridResident).map (specEmit gk pre)).length ≤ l.length := by
  refine ⟨hotkeys_output_ok gk pre hlen l, List.length_map _ _, ?_⟩
  rw [List.length_map]
  exact List.length_filter_le _ l

/-- C6, instantiated: of `A=q`, `B=n`, `C/D=y` only the two
grid-resident pairings survive, remapped through the default grid. -/
theorem C6_witness :
    hotkeys_output default_grid "" ["A=q", "B=n", "C/D=y"] =
      .ok (((["A=q", "B=n", "C/D=y"] : List String).filter
        gridResident).map (specEmit default_grid "")) :=
  (C6_thm default_grid "" ["A=q", "B=n", "C/D=y"] rfl).1

/-- C7: if no part of a label contains a literal faction name, and
some part matches a keyword of faction `A` while the same or a later
part matches a keyword of a different faction `B`, the classifier
returns `"all"`. -/
theorem C7_thm (cat : Catalog) (hk : String)
    (hname : ∀ p ∈ labelParts hk, ∀ A : Fin 3,
      substr (factionName A) p = false)
    (A B : Fin 3) (hAB : A ≠ B) (i j : Nat)
    (hi : i < (labelParts hk).length) (hj : j < (labelParts hk).length)
    (hij : i ≤ j) (kwA : String) (hkA : kwA ∈ factionKws cat A)
    (hmA : substr kwA ((labelParts hk).get ⟨i, hi⟩) = true)
    (kwB : String) (hkB : kwB ∈ factionKws cat B)
    (hmB : substr kwB ((labelParts hk).get ⟨j, hj⟩) = true) :
    which cat hk = "all" := by
  have hmem : ∀ C : Fin 3, (factionKws cat C, factionName C) ∈ races cat := by
    intro C
    fin_cases C <;> simp [races, factionKws, factionName]
  have hNN : ∀ p ∈ labelParts hk, ∀ q ∈ races cat, substr q.2 p = false := by
    intro p hp q hq
    rcases races_snd cat q hq with h | h | h
    · rw [h]; exact hname p hp ⟨0, by omega⟩
    · rw [h]; exact hname p hp ⟨1, by omega⟩
    · rw [h]; exact hname p hp ⟨2, by omega⟩
  have hnamesne : factionName A ≠ factionName B := by
    fin_cases A <;> fin_cases B <;>
      first
      | exact absurd rfl hAB
      | decide
  have hwa : runParts (races cat) (labelParts hk) none = .error "all" :=
    runParts_two (races cat) (labelParts hk)
      ((labelParts hk).get ⟨i, hi⟩) ((labelParts hk).get ⟨j, hj⟩)
      (factionKws cat A) (factionName A) (factionKws cat B) (factionName B)
      hNN (List.get_mem _ i hi) (List.get_mem _ j hj) (hmem A) (hmem B)
      hnamesne ⟨kwA, hkA, hmA⟩ ⟨kwB, hkB, hmB⟩
  unfold which
  rw [hwa]

/-- C7, instantiated: with catalog `cat0`, in `xaax/ybby=Q` the first
part matches the protoss keyword `aa` and the second the terran
keyword `bb`, no part contains a faction name, and the classifier
returns `"all"`. -/
theorem C7_witness : which cat0 "xaax/ybby=Q" = "all" :=
  C7_thm cat0 "xaax/ybby=Q" (by decide) 0 1 (by decide) 0 1
    (by decide) (by decide) (by decide)
    "aa" (by decide) (by decide) "bb" (by decide) (by decide)

/-- C8: the faction filter is exactly the order-preserving
`List.filter` keeping the pairings classified `"all"` or classified
equal to the target faction up to lowercasing — a subsequence of the
input, with no reordering and no deduplication. -/
theorem C8_thm (cat : Catalog) (target : String) (raw : List String) :
    filter_race cat target raw = raw.filter
      (fun h => decide (which cat h = "all" ∨
        lowerStr (which cat h) = lowerStr target)) ∧
    List.Sublist (filter_race cat target raw) raw := by
  have key : ∀ h : String,
      (which cat h = "all" ∨ which cat h = lowerStr target) ↔
      (which cat h = "all" ∨ lowerStr (which cat h) = lowerStr target) := by
    intro h
    constructor
    · rintro (h1 | h1)
      · exact Or.inl h1
      · exact Or.inr (by rw [which_lower_fix, h1])
    · rintro (h1 | h1)
      · exact Or.inl h1
      · refine Or.inr ?_
        rw [← which_lower_fix cat h]
        exact h1
  constructor
  · rw [filter_race_eq_filter]
    apply List.filter_congr
    intro h _
    exact decide_eq_decide.mpr (key h)
  · rw [filter_race_eq_filter]
    exact List.filter_sublist raw

/-- C9: filtering by the same target faction twice yields the same
sequence as filtering once. -/
theorem C9_thm (cat : Catalog) (target : String) (raw : List String) :
    filter_race cat target (filter_race cat target raw) =
      filter_race cat target raw := by
  induction raw with
  | nil => rfl
  | cons h t ih =>
    by_cases hc : which cat h = "all" ∨ which cat h = lowerStr target
    · simp only [filter_race, if_pos hc, ih]
    · simp only [filter_race, if_neg hc, ih]

/-- C10: the classifier's returned faction is a pure function of the
label and the catalog: it does not depend on the verbose flag, whose
only effect is the printed trace, and it agrees with the trace-free
classifier. -/
theorem C10_thm (cat : Catalog) (v1 v2 : Bool) (hk : String) :
    (whichVerbose cat v1 hk).1 = (whichVerbose cat v2 hk).1 ∧
    (whichVerbose cat v1 hk).1 = which cat hk := by
  unfold whichVerbose which
  cases runParts (races cat) (labelParts hk) none with
  | error a => exact ⟨rfl, rfl⟩
  | ok cur => exact ⟨rfl, rfl⟩
